import Mathlib

set_option linter.unusedSectionVars false

/-!
POMDP solver verification: belief update (FORWARD), Bellman backup over
alpha-vectors, dominance pruning, and the policy extractor, modelled over
finite state / action / observation spaces with exact rational arithmetic.
-/

/-- Error taxonomy of the solver (spec §7): `ImpossibleObservation` when the
FORWARD normalizing sum is zero, `InvalidDistribution` when a conditional
distribution fails to sum to 1 at construction. -/
inductive PomdpError where
  | ImpossibleObservation : PomdpError
  | InvalidDistribution : PomdpError
deriving DecidableEq

/-- A POMDP model: transition probabilities `T s a s'` (probability that
action `a` moves the system from `s` to `s'`), sensor probabilities
`O e s` (probability of perceiving evidence `e` in state `s`), and the
reward `R s a`. -/
structure Pomdp (σ α ε : Type) where
  T : σ → α → σ → ℚ
  O : ε → σ → ℚ
  R : σ → α → ℚ

section Defs

variable {σ α ε : Type} [Fintype σ] [DecidableEq σ] [Fintype ε] [DecidableEq ε]

/-- Modelled from the spec: the repository has no executable FORWARD code
(the notebook states the belief-update equation
`b'(s') = α P(e|s') Σ_s P(s'|s,a) b(s)` in markdown only).  For each
resulting state `s'` we form the unnormalized weight
`w(s') = O(e,s') * Σ_s T(s,a,s') * b(s)`, and divide by the normalizing sum
`Z = Σ_{s'} w(s')`; when `Z = 0` the update fails with
`ImpossibleObservation` instead of dividing by zero. -/
def forward (M : Pomdp σ α ε) (b : σ → ℚ) (a : α) (e : ε) :
    Except PomdpError (σ → ℚ) :=
  let w : σ → ℚ := fun s' => M.O e s' * ∑ s, M.T s a s' * b s
  let Z : ℚ := ∑ s', w s'
  if Z = 0 then Except.error PomdpError.ImpossibleObservation
  else Except.ok (fun s' => w s' / Z)

/-- The normalizing sum of the FORWARD update. -/
def forwardNorm (M : Pomdp σ α ε) (b : σ → ℚ) (a : α) (e : ε) : ℚ :=
  ∑ s', M.O e s' * ∑ s, M.T s a s' * b s

/-- Modelled from the spec: the repository has no sensor-model constructor
code.  `mkSensorModel` accepts a candidate sensor model only when, for each
fixed state `s`, the probabilities `O e s` over all observations sum to 1;
any other candidate is rejected with `InvalidDistribution` and is never
renormalized. -/
def mkSensorModel (O : ε → σ → ℚ) : Except PomdpError (ε → σ → ℚ) :=
  if ∀ s, ∑ e, O e s = 1 then Except.ok O
  else Except.error PomdpError.InvalidDistribution

/-- The dot product of an alpha-vector with a belief: the value of the
fixed conditional plan the alpha-vector represents, at that belief. -/
def dotp (v b : σ → ℚ) : ℚ := ∑ s, v s * b s

/-- Modelled from the spec: `evaluate(valueFunction, belief).bestValue`,
the value represented by a finite set of alpha-vectors at a belief — the
maximum dot product over the set (`⊥` for the empty set). -/
def bestValue (V : Finset (σ → ℚ)) (b : σ → ℚ) : WithBot ℚ :=
  V.sup (fun v => ((dotp v b : ℚ) : WithBot ℚ))

/-- Modelled from the spec: the mandatory first pass of dominance pruning —
a vector is discarded when some other vector of the candidate set is
pointwise at least as large everywhere and differs from it (the exact
linear-programming pass is left open by the spec, which mandates only the
dominance contract). -/
def prune (S : Finset (σ → ℚ)) : Finset (σ → ℚ) :=
  S.filter (fun v => ¬ ∃ w ∈ S, (∀ s, v s ≤ w s) ∧ v ≠ w)

/-- Modelled from the spec: the projected alpha-vector
`g_{a,e,i}(s) = R(s,a)/|E| + Σ_{s'} T(s,a,s') * O(e,s') * alpha_i(s')`
of the Bellman backup. -/
def gvec (M : Pomdp σ α ε) (a : α) (e : ε) (v : σ → ℚ) : σ → ℚ :=
  fun s => M.R s a / (Fintype.card ε : ℚ) +
    ∑ s', M.T s a s' * M.O e s' * v s'

/-- Modelled from the spec: the cross-sum step of the Bellman backup for a
fixed action `a` — every choice of one projected vector `g_{a,e,i}` per
observation `e`, summed across observations. -/
def crossSums (M : Pomdp σ α ε) (a : α) (V : Finset (σ → ℚ)) :
    Finset (σ → ℚ) :=
  (Fintype.piFinset (fun _ : ε => V)).image
    (fun f => fun s => ∑ e, gvec M a e (f e) s)

/-- Modelled from the spec: the Bellman backup — the union over actions of
the per-action cross-sums. -/
def backup (M : Pomdp σ α ε) (A : Finset α) (V : Finset (σ → ℚ)) :
    Finset (σ → ℚ) :=
  A.biUnion (fun a => crossSums M a V)

/-- Modelled from the spec: the horizon-0 value function — one vector of
raw rewards per action. -/
def horizon0 (M : Pomdp σ α ε) (A : Finset α) : Finset (σ → ℚ) :=
  A.image (fun a => fun s => M.R s a)

/-- Modelled from the spec: successive backup-then-prune horizons starting
from the horizon-0 value function. -/
def valueIter (M : Pomdp σ α ε) (A : Finset α) : ℕ → Finset (σ → ℚ)
  | 0 => horizon0 M A
  | n + 1 => prune (backup M A (valueIter M A n))

/-- `setDom V W`: every vector of `V` is pointwise dominated by some vector
of `W` (used to compare successive horizons). -/
def setDom (V W : Finset (σ → ℚ)) : Prop :=
  ∀ v ∈ V, ∃ w ∈ W, ∀ s, v s ≤ w s

/-- Modelled from the spec: the one-step expected reward
`ρ(b) = Σ_s b(s) R(s)` exposed by the policy extractor, computed with the
same dot-product primitive the evaluator uses. -/
def expectedReward (Rw : σ → ℚ) (b : σ → ℚ) : ℚ := dotp Rw b

end Defs

/-- A trivial one-state, one-action, one-observation model used to witness
the general theorems at a concrete input. -/
def M1 : Pomdp (Fin 1) (Fin 1) (Fin 1) :=
  ⟨fun _ _ _ => 1, fun _ _ => 1, fun _ _ => 1⟩

/-- The certain belief on the single state of `M1`. -/
def b1 : Fin 1 → ℚ := fun _ => 1

/-- A concrete valid sensor model on one state and one observation. -/
def Ovalid : Fin 1 → Fin 1 → ℚ := fun _ _ => 1

/-- The 0-indexed positions of the two-wall states s1,s2,s4,s5,s8,s9,s11 of
the 11-state grid scenario. -/
def twoWalls : List (Fin 11) := [0, 1, 3, 4, 7, 8, 10]

/-- The 0-indexed positions of the one-wall states s3,s6,s7,s10. -/
def oneWalls : List (Fin 11) := [2, 5, 6, 9]

/-- The 11-state grid scenario of the notebook: identity transition model
for the single action, sensor model `P(e=2|s)=1/7` on the two-wall states
and `P(e=1|s)=1/4` on the one-wall states, 0 elsewhere.  Observation index
`1` encodes the percept `e=2` (two walls) and index `0` encodes `e=1`. -/
def gridM : Pomdp (Fin 11) (Fin 1) (Fin 2) where
  T := fun s _ s' => if s' = s then 1 else 0
  O := fun e s => if e = 1 then (if s ∈ twoWalls then 1/7 else 0)
                  else (if s ∈ oneWalls then 1/4 else 0)
  R := fun _ _ => 0

/-- The initial belief `(0.8, 0.1, 0, 0, 0.1, 0, 0, 0, 0, 0, 0)` of the
grid scenario. -/
def bGrid : Fin 11 → ℚ := fun s =>
  if s = 0 then 4/5 else if s = 1 then 1/10 else if s = 4 then 1/10 else 0

/-- A concrete two-element candidate set on one state: the zero vector is
pointwise dominated by the all-ones vector. -/
def S2 : Finset (Fin 1 → ℚ) := {fun _ => 0, fun _ => 1}

/-- The action set of the one-state witness model. -/
def A1 : Finset (Fin 1) := {0}

/-- The constant-2 vector: the unique Bellman-backup candidate of the
one-state witness model from the value function `{b1}`. -/
def vTwo : Fin 1 → ℚ := fun _ => 2

section Theorems

variable {σ α ε : Type} [Fintype σ] [DecidableEq σ] [Fintype ε] [DecidableEq ε]

theorem forward_eq_ok (M : Pomdp σ α ε) (b : σ → ℚ) (a : α) (e : ε)
    (h : forwardNorm M b a e ≠ 0) :
    forward M b a e =
      Except.ok (fun s' =>
        (M.O e s' * ∑ s, M.T s a s' * b s) / forwardNorm M b a e) := by
  simp [forward, forwardNorm] at h ⊢
  intro hz
  exact absurd hz h

/-- C1: for every belief `b`, action `a` and observation `e` with positive
normalizing sum, `forward b a e` returns the belief
`b'(s') = α * w(s')` with `w(s') = O(e,s') * Σ_s T(s,a,s') * b(s)` and
`α = 1 / Σ_{s'} w(s')`. -/
theorem forward_belief_update (M : Pomdp σ α ε) (b : σ → ℚ) (a : α) (e : ε)
    (h : 0 < forwardNorm M b a e) :
    forward M b a e =
      Except.ok (fun s' =>
        (forwardNorm M b a e)⁻¹ * (M.O e s' * ∑ s, M.T s a s' * b s)) := by
  rw [forward_eq_ok M b a e (ne_of_gt h)]
  congr 1
  funext s'
  rw [div_eq_inv_mul]

/-- C2: `forward b a e` fails, and fails with `ImpossibleObservation`,
exactly when the normalizing sum `Σ_{s'} w(s')` equals 0; the error is
returned to the caller (the `Except.error` branch) and no division is
performed in that case. -/
theorem forward_error_iff (M : Pomdp σ α ε) (b : σ → ℚ) (a : α) (e : ε)
    (err : PomdpError) :
    forward M b a e = Except.error err ↔
      err = PomdpError.ImpossibleObservation ∧ forwardNorm M b a e = 0 := by
  simp only [forward, forwardNorm]
  split
  · simp_all [eq_comm]
  · simp_all

/-- C3: whenever the model probabilities and the input belief are
nonnegative and `forward b a e` succeeds, the returned belief has all
entries ≥ 0 and its entries sum to exactly 1 (exact rationals, so the
tolerance ε of the spec is met exactly). -/
theorem forward_valid_belief (M : Pomdp σ α ε) (b : σ → ℚ) (a : α) (e : ε)
    (b' : σ → ℚ)
    (hT : ∀ s a s', 0 ≤ M.T s a s') (hO : ∀ e s, 0 ≤ M.O e s)
    (hb : ∀ s, 0 ≤ b s)
    (h : forward M b a e = Except.ok b') :
    (∀ s', 0 ≤ b' s') ∧ (∑ s', b' s') = 1 := by
  have hw : ∀ s', 0 ≤ M.O e s' * ∑ s, M.T s a s' * b s := fun s' =>
    mul_nonneg (hO e s')
      (Finset.sum_nonneg fun s _ => mul_nonneg (hT s a s') (hb s))
  simp only [forward] at h
  split at h
  · exact absurd h (by simp)
  · rename_i hZ
    have hb' : b' = fun s' =>
        (M.O e s' * ∑ s, M.T s a s' * b s) /
          (∑ s'', M.O e s'' * ∑ s, M.T s a s'' * b s) := by
      have := (Except.ok.injEq _ _).mp h
      exact this.symm
    have hZ0 : (0:ℚ) ≤ ∑ s'', M.O e s'' * ∑ s, M.T s a s'' * b s :=
      Finset.sum_nonneg fun s'' _ => hw s''
    constructor
    · intro s'
      rw [hb']
      exact div_nonneg (hw s') hZ0
    · rw [hb']
      rw [← Finset.sum_div]
      exact div_self hZ

/-- C5: every sensor model accepted by `mkSensorModel` is returned
unchanged (never renormalized) and satisfies `Σ_e P(e|s) = 1` for each
fixed state `s`; a candidate violating this is rejected with
`InvalidDistribution`. -/
theorem mkSensorModel_valid (O : ε → σ → ℚ) :
    (∀ O', mkSensorModel O = Except.ok O' →
      O' = O ∧ ∀ s, ∑ e, O' e s = 1) ∧
    (mkSensorModel O = Except.error PomdpError.InvalidDistribution ↔
      ¬ ∀ s, ∑ e, O e s = 1) := by
  constructor
  · intro O' h
    rw [mkSensorModel] at h
    split at h
    · rename_i hv
      injection h with h'
      exact ⟨h'.symm, h' ▸ hv⟩
    · exact absurd h (by simp)
  · rw [mkSensorModel]
    split
    · rename_i hv
      simp [hv]
    · rename_i hv
      simp [hv]

theorem mem_prune {S : Finset (σ → ℚ)} {v : σ → ℚ} :
    v ∈ prune S ↔ v ∈ S ∧ ∀ w ∈ S, (∀ s, v s ≤ w s) → v = w := by
  rw [prune, Finset.mem_filter]
  constructor
  · rintro ⟨hv, hall⟩
    refine ⟨hv, fun w hw hle => ?_⟩
    by_contra hne
    exact hall ⟨w, hw, hle, hne⟩
  · rintro ⟨hv, hall⟩
    exact ⟨hv, fun ⟨w, hw, hle, hne⟩ => hne (hall w hw hle)⟩

theorem exists_pruned_dominator {S : Finset (σ → ℚ)} {v : σ → ℚ}
    (hv : v ∈ S) : ∃ w ∈ prune S, ∀ s, v s ≤ w s := by
  have hD : (S.filter (fun w => ∀ s, v s ≤ w s)).Nonempty :=
    ⟨v, Finset.mem_filter.mpr ⟨hv, fun s => le_refl _⟩⟩
  obtain ⟨m, hm, hmax⟩ := Finset.exists_maximal _ hD
  rcases Finset.mem_filter.mp hm with ⟨hmS, hvm⟩
  refine ⟨m, mem_prune.mpr ⟨hmS, fun w hw hle => ?_⟩, hvm⟩
  by_contra hne
  have hwD : w ∈ S.filter (fun w => ∀ s, v s ≤ w s) :=
    Finset.mem_filter.mpr ⟨hw, fun s => le_trans (hvm s) (hle s)⟩
  exact hmax w hwD (lt_of_le_of_ne (Pi.le_def.mpr hle) hne)

theorem dotp_mono {v w b : σ → ℚ} (hb : ∀ s, 0 ≤ b s)
    (h : ∀ s, v s ≤ w s) : dotp v b ≤ dotp w b :=
  Finset.sum_le_sum fun s _ => mul_le_mul_of_nonneg_right (h s) (hb s)

/-- C7: the dominance-pruning pass never changes the represented value
function — at every belief `b` of the simplex (all entries nonnegative),
the maximum dot product over the pruned set equals the maximum over the
original candidate set; in particular removing every pointwise-dominated
vector leaves the maximum unchanged at every such belief. -/
theorem prune_preserves_value (S : Finset (σ → ℚ)) (b : σ → ℚ)
    (hb : ∀ s, 0 ≤ b s) :
    bestValue (prune S) b = bestValue S b := by
  rw [bestValue, bestValue]
  apply le_antisymm
  · exact Finset.sup_mono (Finset.filter_subset _ _)
  · apply Finset.sup_le
    intro v hv
    obtain ⟨w, hw, hle⟩ := exists_pruned_dominator hv
    have h2 : ((dotp w b : ℚ) : WithBot ℚ) ≤
        (prune S).sup (fun u => ((dotp u b : ℚ) : WithBot ℚ)) := by
      apply Finset.le_sup hw
    exact le_trans (WithBot.coe_le_coe.mpr (dotp_mono hb hle)) h2

/-- C8: pruning is idempotent — `prune (prune S) = prune S` as sets, for
every candidate set `S`. -/
theorem prune_idempotent (S : Finset (σ → ℚ)) :
    prune (prune S) = prune S := by
  apply Finset.filter_true_of_mem ?_
  intro v hv
  rcases mem_prune.mp hv with ⟨hvS, hmax⟩
  rintro ⟨w, hw, hle, hne⟩
  exact hne (hmax w (Finset.mem_of_mem_filter w hw) hle)

theorem crossSum_eval (M : Pomdp σ α ε) (a : α) (f : ε → (σ → ℚ))
    (hε : 0 < Fintype.card ε) (s : σ) :
    ∑ e, gvec M a e (f e) s =
      M.R s a + ∑ e, ∑ s', M.T s a s' * M.O e s' * f e s' := by
  simp only [gvec]
  rw [Finset.sum_add_distrib]
  congr 1
  rw [Finset.sum_const, Finset.card_univ, nsmul_eq_mul]
  have h0 : (Fintype.card ε : ℚ) ≠ 0 := Nat.cast_ne_zero.mpr hε.ne'
  field_simp

/-- C6: the Bellman backup produces, for each action `a` of the action set,
exactly the cross-sums obtained by choosing one projected vector
`g_{a,e,i}` per observation `e` from the current value function and summing
over `e`; and in every candidate the reward term, distributed as
`R(s,a)/|E|` across observations, reconstructs the full immediate reward
`R(s,a)` exactly once. -/
theorem backup_characterization (M : Pomdp σ α ε) (A : Finset α)
    (V : Finset (σ → ℚ)) (hε : 0 < Fintype.card ε) (v : σ → ℚ) :
    v ∈ backup M A V ↔
      ∃ a ∈ A, ∃ f : ε → (σ → ℚ), (∀ e, f e ∈ V) ∧
        ∀ s, v s = M.R s a + ∑ e, ∑ s', M.T s a s' * M.O e s' * f e s' := by
  rw [backup, Finset.mem_biUnion]
  constructor
  · rintro ⟨a, ha, hv⟩
    rw [crossSums, Finset.mem_image] at hv
    obtain ⟨f, hf, rfl⟩ := hv
    refine ⟨a, ha, f, Fintype.mem_piFinset.mp hf, fun s => ?_⟩
    show ∑ e, gvec M a e (f e) s = _
    exact crossSum_eval M a f hε s
  · rintro ⟨a, ha, f, hfV, hv⟩
    refine ⟨a, ha, ?_⟩
    rw [crossSums, Finset.mem_image]
    refine ⟨f, Fintype.mem_piFinset.mpr hfV, ?_⟩
    funext s
    rw [crossSum_eval M a f hε s]
    exact (hv s).symm

theorem bestValue_mono_setDom {V W : Finset (σ → ℚ)} {b : σ → ℚ}
    (hb : ∀ s, 0 ≤ b s) (h : setDom V W) :
    bestValue V b ≤ bestValue W b := by
  rw [bestValue, bestValue]
  apply Finset.sup_le
  intro v hv
  obtain ⟨w, hw, hle⟩ := h v hv
  have h2 : ((dotp w b : ℚ) : WithBot ℚ) ≤
      W.sup (fun u => ((dotp u b : ℚ) : WithBot ℚ)) := by
    apply Finset.le_sup hw
  exact le_trans (WithBot.coe_le_coe.mpr (dotp_mono hb hle)) h2

theorem gvec_mono (M : Pomdp σ α ε) (a : α) (e : ε) {u u' : σ → ℚ}
    (hT : ∀ s a s', 0 ≤ M.T s a s') (hO : ∀ e s, 0 ≤ M.O e s)
    (h : ∀ s, u s ≤ u' s) (s : σ) :
    gvec M a e u s ≤ gvec M a e u' s := by
  apply add_le_add_left
  apply Finset.sum_le_sum
  intro s' _
  exact mul_le_mul_of_nonneg_left (h s') (mul_nonneg (hT s a s') (hO e s'))

theorem backup_mono (M : Pomdp σ α ε) (A : Finset α)
    {V W : Finset (σ → ℚ)}
    (hT : ∀ s a s', 0 ≤ M.T s a s') (hO : ∀ e s, 0 ≤ M.O e s)
    (h : setDom V W) : setDom (backup M A V) (backup M A W) := by
  intro v hv
  rw [backup, Finset.mem_biUnion] at hv
  obtain ⟨a, ha, hv⟩ := hv
  rw [crossSums, Finset.mem_image] at hv
  obtain ⟨f, hf, rfl⟩ := hv
  have hfV := Fintype.mem_piFinset.mp hf
  choose g hgW hgle using fun e => h (f e) (hfV e)
  refine ⟨fun s => ∑ e, gvec M a e (g e) s, ?_, ?_⟩
  · rw [backup, Finset.mem_biUnion]
    exact ⟨a, ha, Finset.mem_image.mpr
      ⟨g, Fintype.mem_piFinset.mpr hgW, rfl⟩⟩
  · intro s
    apply Finset.sum_le_sum
    intro e _
    exact gvec_mono M a e hT hO (hgle e) s

theorem setDom_prune (S : Finset (σ → ℚ)) : setDom S (prune S) :=
  fun _ hv => exists_pruned_dominator hv

theorem setDom_horizon0_backup (M : Pomdp σ α ε) (A : Finset α)
    (hR : ∀ s a, 0 ≤ M.R s a) (hT : ∀ s a s', 0 ≤ M.T s a s')
    (hO : ∀ e s, 0 ≤ M.O e s) (hε : 0 < Fintype.card ε) :
    setDom (horizon0 M A) (backup M A (horizon0 M A)) := by
  intro v hv
  rw [horizon0, Finset.mem_image] at hv
  obtain ⟨a, ha, rfl⟩ := hv
  refine ⟨fun s => ∑ e, gvec M a e (fun s' => M.R s' a) s, ?_, ?_⟩
  · rw [backup, Finset.mem_biUnion]
    refine ⟨a, ha, ?_⟩
    rw [crossSums, Finset.mem_image]
    refine ⟨fun _ => (fun s' => M.R s' a), Fintype.mem_piFinset.mpr ?_, rfl⟩
    intro e
    rw [horizon0, Finset.mem_image]
    exact ⟨a, ha, rfl⟩
  · intro s
    show M.R s a ≤ ∑ e, gvec M a e (fun s' => M.R s' a) s
    rw [crossSum_eval M a _ hε s]
    apply le_add_of_nonneg_right
    apply Finset.sum_nonneg
    intro e _
    apply Finset.sum_nonneg
    intro s' _
    exact mul_nonneg (mul_nonneg (hT s a s') (hO e s')) (hR s' a)

theorem valueIter_setDom (M : Pomdp σ α ε) (A : Finset α)
    (hR : ∀ s a, 0 ≤ M.R s a) (hT : ∀ s a s', 0 ≤ M.T s a s')
    (hO : ∀ e s, 0 ≤ M.O e s) (hε : 0 < Fintype.card ε) (n : ℕ) :
    setDom (valueIter M A n) (valueIter M A (n+1)) := by
  induction n with
  | zero =>
    intro v hv
    obtain ⟨w, hw, hle⟩ := setDom_horizon0_backup M A hR hT hO hε v hv
    obtain ⟨x, hx, hle2⟩ := exists_pruned_dominator hw
    exact ⟨x, hx, fun s => le_trans (hle s) (hle2 s)⟩
  | succ n ih =>
    intro v hv
    have hvb : v ∈ backup M A (valueIter M A n) :=
      Finset.mem_of_mem_filter v hv
    obtain ⟨w, hw, hle⟩ := backup_mono M A hT hO ih v hvb
    obtain ⟨x, hx, hle2⟩ := exists_pruned_dominator hw
    exact ⟨x, hx, fun s => le_trans (hle s) (hle2 s)⟩

/-- C9: when all rewards (and the model probabilities) are nonnegative, the
value of the evaluated value function at any fixed belief is non-decreasing
across successive backup-then-prune horizons. -/
theorem valueIter_monotone (M : Pomdp σ α ε) (A : Finset α) (b : σ → ℚ)
    (n : ℕ)
    (hR : ∀ s a, 0 ≤ M.R s a) (hT : ∀ s a s', 0 ≤ M.T s a s')
    (hO : ∀ e s, 0 ≤ M.O e s) (hε : 0 < Fintype.card ε)
    (hb : ∀ s, 0 ≤ b s) :
    bestValue (valueIter M A n) b ≤ bestValue (valueIter M A (n+1)) b :=
  bestValue_mono_setDom hb (valueIter_setDom M A hR hT hO hε n)

/-- C10: the policy extractor's one-step expected-reward baseline equals
`Σ_s b(s) * R(s)`, and coincides with evaluating the horizon-0 value
function consisting of the single raw-reward vector. -/
theorem expectedReward_eq (Rw b : σ → ℚ) :
    expectedReward Rw b = ∑ s, b s * Rw s ∧
    bestValue {Rw} b = ((expectedReward Rw b : ℚ) : WithBot ℚ) := by
  constructor
  · rw [expectedReward, dotp]
    exact Finset.sum_congr rfl fun s _ => mul_comm _ _
  · rw [bestValue, expectedReward, Finset.sup_singleton]

end Theorems

/-- Witness for C5: the constant-1 sensor model on one state and one
observation is accepted and returned unchanged, with rows summing to 1. -/
theorem mkSensorModel_valid_witness :
    Ovalid = Ovalid ∧ ∀ s : Fin 1, ∑ e, Ovalid e s = 1 :=
  (mkSensorModel_valid Ovalid).1 Ovalid
    (by simp [mkSensorModel, Ovalid])

/-- Witness for C7: on the concrete candidate set `S2` and the point-mass
belief `b1`, the pruned set represents the same value. -/
theorem prune_preserves_value_witness :
    (∀ s : Fin 1, 0 ≤ b1 s) ∧ bestValue (prune S2) b1 = bestValue S2 b1 :=
  ⟨fun s => by norm_num [b1],
   prune_preserves_value S2 b1 (fun s => by norm_num [b1])⟩

/-- Witness for C6: in the one-state model with value function `{b1}`, the
constant-2 vector is the Bellman-backup candidate (reward 1 reconstructed
once, plus the projected continuation value 1). -/
theorem backup_characterization_witness :
    0 < Fintype.card (Fin 1) ∧ vTwo ∈ backup M1 A1 {b1} :=
  ⟨by simp,
   (backup_characterization M1 A1 {b1} (by simp) vTwo).mpr
     ⟨0, by simp [A1], fun _ => b1, fun e => by simp,
      fun s => by norm_num [vTwo, M1, b1, Fin.sum_univ_one]⟩⟩

/-- Witness for C9: in the one-state model with reward 1, the value at the
point-mass belief does not decrease from horizon 0 to horizon 1. -/
theorem valueIter_monotone_witness :
    (∀ (s a : Fin 1), 0 ≤ M1.R s a) ∧
    (∀ (s a s' : Fin 1), 0 ≤ M1.T s a s') ∧
    (∀ (e s : Fin 1), 0 ≤ M1.O e s) ∧
    0 < Fintype.card (Fin 1) ∧ (∀ s : Fin 1, 0 ≤ b1 s) ∧
    bestValue (valueIter M1 A1 0) b1 ≤ bestValue (valueIter M1 A1 1) b1 :=
  ⟨fun s a => by norm_num [M1], fun s a s' => by norm_num [M1],
   fun e s => by norm_num [M1], by simp, fun s => by norm_num [b1],
   valueIter_monotone M1 A1 b1 0
     (fun s a => by norm_num [M1]) (fun s a s' => by norm_num [M1])
     (fun e s => by norm_num [M1]) (by simp) (fun s => by norm_num [b1])⟩

/-- Witness for C1 at the one-state model: the normalizing sum is 1 > 0 and
the update returns the normalized weights. -/
theorem forward_belief_update_witness :
    0 < forwardNorm M1 b1 0 0 ∧
      forward M1 b1 0 0 =
        Except.ok (fun s' =>
          (forwardNorm M1 b1 0 0)⁻¹ *
            (M1.O 0 s' * ∑ s, M1.T s 0 s' * b1 s)) :=
  ⟨by norm_num [forwardNorm, M1, b1],
   forward_belief_update M1 b1 0 0 (by norm_num [forwardNorm, M1, b1])⟩

/-- Witness for C3 at the one-state model: the returned belief is the
constant-1 vector, nonnegative and summing to 1. -/
theorem forward_valid_belief_witness :
    (∀ s' : Fin 1, 0 ≤ (fun _ : Fin 1 => (1:ℚ)) s') ∧
      (∑ s' : Fin 1, (fun _ : Fin 1 => (1:ℚ)) s') = 1 :=
  forward_valid_belief M1 b1 0 0 (fun _ => 1)
    (by intro s a s'; norm_num [M1])
    (by intro e s; norm_num [M1])
    (by intro s; norm_num [b1])
    (by simp [forward, M1, b1])

theorem gridT_sum (b : Fin 11 → ℚ) (a : Fin 1) (s' : Fin 11) :
    ∑ s, gridM.T s a s' * b s = b s' := by
  simp [gridM, ite_mul, Finset.sum_ite_eq]

theorem gridO_rw : (fun s' => gridM.O 1 s' * bGrid s') =
    (fun s' : Fin 11 =>
      if s' = 0 then (4:ℚ)/35 else if s' = 1 then 1/70
      else if s' = 4 then 1/70 else 0) := by
  funext s'
  fin_cases s' <;> norm_num +decide [gridM, bGrid, twoWalls]

/-- C4: in the 11-state grid scenario, `forward bGrid a (e=2)` succeeds and
returns `bGrid` itself — so the posterior mass lies only on the two-wall
states `{s1,s2,s4,s5,s8,s9,s11}`, is proportional to `b`, and sums to 1 —
while `forward bGrid a (e=1)` yields the `ImpossibleObservation` error,
since `b` has no mass on the states where `e=1` is possible. -/
theorem grid_scenario :
    forward gridM bGrid 0 1 = Except.ok bGrid ∧
    (∑ s, bGrid s) = 1 ∧
    (∀ s : Fin 11, s ∉ twoWalls → bGrid s = 0) ∧
    forward gridM bGrid 0 0 =
      Except.error PomdpError.ImpossibleObservation := by
  refine ⟨?_, ?_, by decide, ?_⟩
  · simp only [forward, gridT_sum, gridO_rw]
    rw [if_neg]
    · congr 1
      funext s'
      fin_cases s' <;>
        norm_num +decide [gridM, bGrid, twoWalls, Fin.sum_univ_succ]
    · norm_num +decide [Fin.sum_univ_succ]
  · simp +decide [bGrid, Fin.sum_univ_succ]
    norm_num
  · simp +decide [forward, gridM, bGrid, twoWalls, oneWalls,
      Fin.sum_univ_succ]
